import Mathlib

/-!
Shallow embedding of `tuplex::ResultSet` (src/tuplex/core/src/physical/ResultSet.cc),
the two-queue result cursor that merges serialized partition rows with
index-tagged fallback rows, together with proofs about its behaviour.

External collaborators (Partition, the row codec, the fallback conversion) are
not part of the repository snapshot; they are modelled from the spec's
interface contracts, each such definition marked in its doc comment.
-/

set_option autoImplicit false

namespace tuplex

/-- Modelled from the spec: one serialized row inside a partition buffer —
an opaque payload `val` plus its serialized byte length `len`
(`Row.serializedLength` of the decoded row). -/
structure SerRow where
  val : Nat
  len : Nat
deriving DecidableEq, Repr

/-- Modelled from the spec: a Partition is an opaque fixed-capacity block
holding serialized rows of one schema, exposing row count, schema, and a
stable identifier. Per the codec contract it contains exactly `getNumRows`
well-formed rows, so the buffer is modelled as the list of its rows. -/
structure Partition where
  uuid : Nat
  schemaId : Nat
  rows : List SerRow
deriving DecidableEq, Repr

/-- Modelled from the spec: `Partition::getNumRows()` — the number of rows
stored in the partition. -/
def Partition.getNumRows (p : Partition) : Nat :=
  p.rows.length

/-- A logical row: the default-constructed sentinel `Row()`, a row decoded
from partition memory, or a row converted from a fallback python object. -/
inductive Row where
  | empty : Row
  | binary (r : SerRow) : Row
  | py (obj : Nat) : Row
deriving DecidableEq, Repr

/-- Modelled from the spec: `Row::serializedLength()` — the serialized byte
length of a decoded row. -/
def Row.serializedLength : Row → Nat
  | .empty => 0
  | .binary r => r.len
  | .py _ => 0

/-- Modelled from the spec: `Row::fromMemory(schema, ptr + byteCounter, ...)` —
decode one row starting at byte offset `off` of a partition buffer. The buffer
is the list of serialized rows; the row starting at `off` is found by walking
cumulative serialized lengths. Decoding outside the well-formed content
(past the declared rows) is outside the codec contract; it returns the
sentinel row here. -/
def Row.fromMemory : List SerRow → Nat → Row
  | [], _ => Row.empty
  | r :: rest, off => if off = 0 then Row.binary r else Row.fromMemory rest (off - r.len)

/-- Modelled from the spec: `python::pythonToRow(obj)` — convert a fallback
python object (opaque, identified by a handle) to a Row, under the GIL. -/
def pythonToRow (obj : Nat) : Row :=
  Row.py obj

/-- The cursor state: the fields of `tuplex::ResultSet`.
`pyobjects` entries are `(logical row index, python object handle)`. -/
structure ResultSet where
  partitions : List Partition
  exceptions : List Partition
  pyobjects : List (Nat × Nat)
  curRowCounter : Nat
  byteCounter : Nat
  totalRowCounter : Nat
  maxRows : Nat
  rowsRetrieved : Nat
deriving DecidableEq, Repr

/-- `INT64_MAX`, the "unlimited" row budget. -/
def int64Max : Nat := 2 ^ 63 - 1

/-- The `ResultSet` constructor: queues the partitions and tagged rows, keeps
the exception partitions, zeroes all counters, and maps a negative `maxRows`
to the maximum representable count (unbounded). -/
def mkResultSet (partitions : List Partition) (exceptions : List Partition)
    (pyobjects : List (Nat × Nat)) (maxRows : Int) : ResultSet where
  partitions := partitions
  exceptions := exceptions
  pyobjects := pyobjects
  curRowCounter := 0
  byteCounter := 0
  totalRowCounter := 0
  maxRows := if maxRows < 0 then int64Max else maxRows.toNat
  rowsRetrieved := 0

/-- `ResultSet::clear()`: invalidates every queued partition and every
exception partition, empties the partition queue, zeroes `curRowCounter`,
`byteCounter`, `maxRows` and `rowsRetrieved`. Returns the new state together
with the list of partitions invalidated by the call. Note the source does not
touch `_totalRowCounter`, `_pyobjects` or the `_exceptions` vector. -/
def ResultSet.clear (s : ResultSet) : ResultSet × List Partition :=
  ({ s with partitions := [], curRowCounter := 0, byteCounter := 0,
            maxRows := 0, rowsRetrieved := 0 },
   s.partitions ++ s.exceptions)

/-- `ResultSet::hasNextRow()`. -/
def ResultSet.hasNextRow (s : ResultSet) : Bool :=
  if s.maxRows ≤ s.rowsRetrieved then false
  else
    match s.partitions, s.pyobjects with
    | [], [] => false
    | [], _ :: _ => true
    | p :: _, [] => decide (s.curRowCounter < p.getNumRows)
    | _ :: _, _ :: _ => true

/-- `ResultSet::hasNextPartition()`. -/
def ResultSet.hasNextPartition (s : ResultSet) : Bool :=
  if s.maxRows ≤ s.rowsRetrieved then false
  else
    match s.partitions with
    | [] => false
    | p :: _ => decide (s.curRowCounter < p.getNumRows)

/-- `ResultSet::getNextPartition()`: pops the front partition (returning
`none` when the queue is empty), charges its full row count against
`rowsRetrieved`, and resets the in-partition offsets. -/
def ResultSet.getNextPartition (s : ResultSet) : Option Partition × ResultSet :=
  match s.partitions with
  | [] => (none, s)
  | first :: rest =>
      (some first,
       { s with partitions := rest,
                rowsRetrieved := s.rowsRetrieved + first.getNumRows,
                curRowCounter := 0, byteCounter := 0 })

/-- `ResultSet::removeFirstPartition()`: invalidates and pops the front
partition, resetting the in-partition offsets; returns the invalidated
partitions. The non-empty queue precondition is asserted in the source;
on an empty queue this model leaves the state unchanged. -/
def ResultSet.removeFirstPartition (s : ResultSet) : ResultSet × List Partition :=
  match s.partitions with
  | [] => (s, [])
  | first :: rest =>
      ({ s with partitions := rest, curRowCounter := 0, byteCounter := 0 }, [first])

/-- `if(_pyobjects.empty()) ... else if(next_row_number != row_number) ...`:
whether emitting a tagged row with index `i` advances `_totalRowCounter`,
given the remaining tagged-row queue. -/
def nextIndexDiffers (i : Nat) : List (Nat × Nat) → Bool
  | [] => true
  | (j, _) :: _ => decide (j ≠ i)

/-- The outcome of one `getNextRow` call: the returned row, the successor
state, the partitions invalidated during the call, and the partitions whose
buffer was locked (read) during the call. -/
structure StepResult where
  row : Row
  state : ResultSet
  invalidated : List Partition
  locked : List Partition
deriving DecidableEq, Repr

/-- The partition-decoding step of `ResultSet::getNextRow()` with the front
partition `first` and the remaining queue `rest` made explicit: lock the
front buffer, decode one row at the current byte offset, advance the byte
offset by the row's serialized length, advance the row offset, charge the
budget, advance the logical position, and retire (invalidate and pop) the
partition when its last row has just been read. -/
def partStep (s : ResultSet) (first : Partition) (rest : List Partition) : StepResult :=
  let row := Row.fromMemory first.rows s.byteCounter
  let s' := { s with byteCounter := s.byteCounter + row.serializedLength,
                     curRowCounter := s.curRowCounter + 1,
                     rowsRetrieved := s.rowsRetrieved + 1,
                     totalRowCounter := s.totalRowCounter + 1 }
  if s.curRowCounter + 1 = first.getNumRows then
    ⟨row, { s' with partitions := rest, curRowCounter := 0, byteCounter := 0 },
     [first], [first]⟩
  else
    ⟨row, s', [], [first]⟩

/-- `ResultSet::getNextRow()`, instrumented with the invalidation and
buffer-lock events of the call. Mirrors the source: first the tagged-row
merge branch (emit the front python object when the partition queue is empty
or its index has been reached), otherwise decode one row from the front
partition, retiring the partition when its last row has been read. -/
def ResultSet.getNextRowE (s : ResultSet) : StepResult :=
  let partPath : StepResult :=
    match s.partitions with
    | [] => ⟨Row.empty, s, [], []⟩
    | first :: rest => partStep s first rest
  match s.pyobjects with
  | (row_number, obj) :: rest =>
      if s.partitions = [] ∨ row_number ≤ s.totalRowCounter then
        ⟨pythonToRow obj,
         { s with pyobjects := rest,
                  rowsRetrieved := s.rowsRetrieved + 1,
                  totalRowCounter := if nextIndexDiffers row_number rest then
                      s.totalRowCounter + 1
                    else s.totalRowCounter },
         [], []⟩
      else partPath
  | [] => partPath

/-- `ResultSet::getNextRow()`: the returned row and the successor state. -/
def ResultSet.getNextRow (s : ResultSet) : Row × ResultSet :=
  ((s.getNextRowE).row, (s.getNextRowE).state)

/-- `ResultSet::rowCount()`: queued partition rows plus pending tagged rows. -/
def ResultSet.rowCount (s : ResultSet) : Nat :=
  (s.partitions.map Partition.getNumRows).sum + s.pyobjects.length

/-- Repeated `getNextRow` calls: the list of the `n` rows returned and the
final state. -/
def drainRows (s : ResultSet) : Nat → List Row × ResultSet
  | 0 => ([], s)
  | n + 1 =>
      ((s.getNextRow).1 :: (drainRows (s.getNextRow).2 n).1,
       (drainRows (s.getNextRow).2 n).2)

/-- Total serialized byte length of a list of rows. -/
def sumLen (rows : List SerRow) : Nat :=
  (rows.map SerRow.len).sum

/-- A partition satisfying the codec contract in a non-degenerate way: it
holds at least one row and every serialized row occupies at least one byte. -/
def goodPartition (p : Partition) : Prop :=
  p.rows ≠ [] ∧ ∀ r ∈ p.rows, 0 < r.len

/-- All decoded rows of a partition, in stored order. -/
def Partition.decodedRows (p : Partition) : List Row :=
  p.rows.map Row.binary

/-- Number of non-sentinel (successful) rows in a list of pulled rows. -/
def successCount (rs : List Row) : Nat :=
  rs.countP (fun r => decide (r ≠ Row.empty))

/-- Total number of rows stored across a list of partitions. -/
def totalQueuedRows (parts : List Partition) : Nat :=
  (parts.map Partition.getNumRows).sum

instance : DecidablePred goodPartition := fun p => by
  unfold goodPartition
  exact inferInstance

/-- Definition following the spec sentence of claim C4, for comparison with
`ResultSet.hasNextRow`: the row budget is not exhausted and either tagged
rows are pending or some partition in the queue still has unread rows (the
front partition has `curRowCounter` rows already read; the rows of every
later partition are all unread). -/
def specHasNextRow (s : ResultSet) : Prop :=
  s.rowsRetrieved < s.maxRows ∧
    (s.pyobjects ≠ [] ∨
      match s.partitions with
      | [] => False
      | p :: rest => s.curRowCounter < p.getNumRows ∨ ∃ q ∈ rest, 0 < q.getNumRows)

/-- The operations a consumer can invoke on the cursor. -/
inductive Op where
  | getRow
  | getPart
  | removeFirst
  | clearAll
  | hasRow
  | hasPart
  | countRows
deriving DecidableEq, Repr

/-- An observable resource event: a partition invalidation, or a read
(scoped lock) of a partition's buffer. -/
inductive Ev where
  | inval (p : Partition)
  | readP (p : Partition)
deriving DecidableEq, Repr

/-- One cursor operation, instrumented with its resource events in the order
they happen (a buffer read precedes the retirement invalidation). -/
def stepEv (s : ResultSet) : Op → ResultSet × List Ev
  | .getRow =>
      let r := s.getNextRowE
      (r.state, r.locked.map Ev.readP ++ r.invalidated.map Ev.inval)
  | .getPart => ((s.getNextPartition).2, [])
  | .removeFirst =>
      let r := s.removeFirstPartition
      (r.1, r.2.map Ev.inval)
  | .clearAll =>
      let r := s.clear
      (r.1, r.2.map Ev.inval)
  | .hasRow => (s, [])
  | .hasPart => (s, [])
  | .countRows => (s, [])

/-- A sequence of cursor operations, with the concatenated event trace. -/
def runEv (s : ResultSet) : List Op → ResultSet × List Ev
  | [] => (s, [])
  | op :: ops =>
      ((runEv (stepEv s op).1 ops).1,
       (stepEv s op).2 ++ (runEv (stepEv s op).1 ops).2)

/-- The trace is clean for partition `p`: once `p` is invalidated, it is
never read nor invalidated again later in the trace. -/
def cleanFor (p : Partition) : List Ev → Prop
  | [] => True
  | e :: rest =>
      (e = Ev.inval p → Ev.readP p ∉ rest ∧ Ev.inval p ∉ rest) ∧ cleanFor p rest

/-- Concrete cursor for the fallback-splice scenario of claim C1: two
partitions whose concatenated rows are `[P0, P1, P2]` and one tagged row
with logical index 1. -/
def spliceExample : ResultSet :=
  mkResultSet [⟨1, 0, [⟨10, 1⟩, ⟨11, 1⟩]⟩, ⟨2, 0, [⟨12, 1⟩]⟩] [] [(1, 99)] (-1)

/-- Concrete cursor with budget 1 and a two-row partition: `getNextPartition`
drives `rowsRetrieved` past `maxRows`. -/
def budgetPartExample : ResultSet :=
  mkResultSet [⟨1, 0, [⟨10, 1⟩, ⟨11, 1⟩]⟩] [] [] 1

/-- Concrete cursor with budget 1 and two tagged rows: after the budget is
consumed, `getNextRow` still yields data. -/
def budgetRowExample : ResultSet :=
  mkResultSet [] [] [(0, 1), (0, 2)] 1

/-- Concrete cursor whose front partition has zero rows while the second
partition still holds a row. -/
def zeroFrontExample : ResultSet :=
  mkResultSet [⟨1, 0, []⟩, ⟨2, 0, [⟨10, 1⟩]⟩] [] [] (-1)

/-- Concrete cursor holding one partition row and two tagged rows that share
logical index 5, not yet reached by the partition stream. -/
def dupBlockedExample : ResultSet :=
  mkResultSet [⟨1, 0, [⟨10, 1⟩]⟩] [] [(5, 21), (5, 22)] (-1)

/-- Concrete cursor holding exactly two tagged rows that share logical
index 5 and no partitions. -/
def dupPairExample : ResultSet :=
  mkResultSet [] [] [(5, 1), (5, 2)] (-1)

/-- Concrete cursor holding three tagged rows that all share logical
index 5 and no partitions. -/
def tripleDupExample : ResultSet :=
  mkResultSet [] [] [(5, 1), (5, 2), (5, 3)] (-1)

/-- Concrete exhausted cursor: one tagged row was pulled, both queues are
now empty and `totalRowCounter` is 1. -/
def exhaustedExample : ResultSet :=
  (drainRows (mkResultSet [] [] [(0, 7)] (-1)) 1).2

/-- Concrete cursor with both queues empty. -/
def emptyExample : ResultSet :=
  mkResultSet [] [] [] 5

/-- Concrete partition list for the order-preservation scenario. -/
def c6Parts : List Partition :=
  [⟨1, 0, [⟨10, 1⟩, ⟨11, 2⟩]⟩, ⟨2, 0, [⟨12, 1⟩]⟩]

/-- Concrete cursor with a single tagged row and no partitions. -/
def taggedExample : ResultSet :=
  mkResultSet [] [] [(0, 7)] (-1)

/-- Concrete cursor constructed with a zero row budget. -/
def budgetZeroExample : ResultSet :=
  mkResultSet [] [] [(0, 1)] 0

/-- Concrete one-row partition. -/
def partExample : Partition :=
  ⟨1, 0, [⟨10, 1⟩]⟩

/-- Concrete cursor holding just `partExample`. -/
def onePartExample : ResultSet :=
  mkResultSet [partExample] [] [] (-1)

end tuplex

namespace tuplex

theorem fromMemory_ne_py (rows : List SerRow) (off obj : Nat) :
    Row.fromMemory rows off ≠ Row.py obj := by
  induction rows generalizing off with
  | nil => simp [Row.fromMemory]
  | cons r rest ih =>
      simp only [Row.fromMemory]
      split
      · simp
      · exact ih _

theorem getNextRowE_tagged (s : ResultSet) (i o : Nat) (rest : List (Nat × Nat))
    (hq : s.pyobjects = (i, o) :: rest)
    (hcond : s.partitions = [] ∨ i ≤ s.totalRowCounter) :
    s.getNextRowE =
      ⟨Row.py o,
       { s with pyobjects := rest,
                rowsRetrieved := s.rowsRetrieved + 1,
                totalRowCounter := if nextIndexDiffers i rest then s.totalRowCounter + 1
                  else s.totalRowCounter },
       [], []⟩ := by
  simp only [ResultSet.getNextRowE, hq]
  rw [if_pos hcond]
  rfl

theorem getNextRowE_blocked (s : ResultSet) (i o : Nat) (rest : List (Nat × Nat))
    (first : Partition) (restP : List Partition)
    (hq : s.pyobjects = (i, o) :: rest)
    (hcond : ¬(s.partitions = [] ∨ i ≤ s.totalRowCounter))
    (hp : s.partitions = first :: restP) :
    s.getNextRowE = partStep s first restP := by
  simp only [ResultSet.getNextRowE, hq, hp]
  rw [if_neg]
  intro h
  rcases h with h | h
  · rw [hp] at hcond; exact hcond (Or.inl h)
  · exact hcond (Or.inr h)

theorem getNextRowE_part (s : ResultSet) (first : Partition) (restP : List Partition)
    (hq : s.pyobjects = [])
    (hp : s.partitions = first :: restP) :
    s.getNextRowE = partStep s first restP := by
  simp only [ResultSet.getNextRowE, hq, hp]

theorem getNextRowE_none (s : ResultSet)
    (hq : s.pyobjects = []) (hp : s.partitions = []) :
    s.getNextRowE = ⟨Row.empty, s, [], []⟩ := by
  simp only [ResultSet.getNextRowE, hq, hp]

theorem partStep_state (s : ResultSet) (first : Partition) (restP : List Partition) :
    (partStep s first restP).state.rowsRetrieved = s.rowsRetrieved + 1 ∧
    (partStep s first restP).state.totalRowCounter = s.totalRowCounter + 1 ∧
    (partStep s first restP).state.maxRows = s.maxRows ∧
    (partStep s first restP).state.pyobjects = s.pyobjects ∧
    (partStep s first restP).state.exceptions = s.exceptions := by
  simp only [partStep]
  split <;> simp

theorem getNextRowE_cases (s : ResultSet) :
    (s.getNextRowE = ⟨Row.empty, s, [], []⟩ ∧ s.partitions = [] ∧ s.pyobjects = []) ∨
    (∃ i o rest, s.pyobjects = (i, o) :: rest ∧
      s.getNextRowE =
        ⟨Row.py o,
         { s with pyobjects := rest,
                  rowsRetrieved := s.rowsRetrieved + 1,
                  totalRowCounter := if nextIndexDiffers i rest then s.totalRowCounter + 1
                    else s.totalRowCounter },
         [], []⟩) ∨
    (∃ first restP, s.partitions = first :: restP ∧
      s.getNextRowE = partStep s first restP) := by
  rcases hq : s.pyobjects with _ | ⟨⟨i, o⟩, rest⟩
  · rcases hp : s.partitions with _ | ⟨first, restP⟩
    · exact Or.inl ⟨getNextRowE_none s hq hp, rfl, rfl⟩
    · exact Or.inr (Or.inr ⟨first, restP, rfl, getNextRowE_part s first restP hq hp⟩)
  · by_cases hcond : s.partitions = [] ∨ i ≤ s.totalRowCounter
    · exact Or.inr (Or.inl ⟨i, o, rest, rfl, getNextRowE_tagged s i o rest hq hcond⟩)
    · rcases hp : s.partitions with _ | ⟨first, restP⟩
      · exact absurd (Or.inl hp) hcond
      · exact Or.inr (Or.inr ⟨first, restP, rfl,
          getNextRowE_blocked s i o rest first restP hq hcond hp⟩)

theorem getNextRow_budget_step (s : ResultSet) :
    (s.getNextRow).2.maxRows = s.maxRows ∧
    (((s.getNextRow).1 = Row.empty ∧ (s.getNextRow).2 = s) ∨
      (s.getNextRow).2.rowsRetrieved = s.rowsRetrieved + 1) := by
  rcases getNextRowE_cases s with ⟨h, _, _⟩ | ⟨i, o, rest, hq, h⟩ | ⟨first, restP, hp, h⟩
  · simp only [ResultSet.getNextRow, h]
    simp
  · simp only [ResultSet.getNextRow, h]
    simp
  · simp only [ResultSet.getNextRow, h]
    exact ⟨(partStep_state s first restP).2.2.1, Or.inr (partStep_state s first restP).1⟩

theorem successCount_cons (r : Row) (rs : List Row) :
    successCount (r :: rs) = successCount rs + (if r = Row.empty then 0 else 1) := by
  simp only [successCount, List.countP_cons]
  by_cases h : r = Row.empty <;> simp [h]

theorem drainRows_budget (n : Nat) : ∀ s : ResultSet,
    (drainRows s n).2.maxRows = s.maxRows ∧
    s.rowsRetrieved + successCount (drainRows s n).1 ≤ (drainRows s n).2.rowsRetrieved := by
  induction n with
  | zero => intro s; simp [drainRows, successCount]
  | succ n ih =>
      intro s
      obtain ⟨hmax, hstep⟩ := getNextRow_budget_step s
      obtain ⟨ihmax, ihle⟩ := ih (s.getNextRow).2
      simp only [drainRows, successCount_cons]
      constructor
      · rw [ihmax, hmax]
      · rcases hstep with ⟨hrow, hstate⟩ | hplus
        · rw [hrow, hstate]
          rw [hstate] at ihle
          simp only [if_pos]
          omega
        · have h1 : (if (s.getNextRow).1 = Row.empty then 0 else 1) ≤ 1 := by
            split <;> omega
          rw [hplus] at ihle
          omega

theorem hasNext_false_of_budget (s : ResultSet) (h : s.maxRows ≤ s.rowsRetrieved) :
    s.hasNextRow = false ∧ s.hasNextPartition = false := by
  simp [ResultSet.hasNextRow, ResultSet.hasNextPartition, if_pos h]

/-- Claim C3 (amended): starting from a fresh cursor (zero rows retrieved),
after the row pulls have yielded `maxRows` successful (non-sentinel) rows,
`hasNextRow()` returns false; and `getNextRow` returns the empty/sentinel
row whenever both queues are empty. (`getNextRow` itself does not check the
budget, so further pulls with queued data still yield rows, see the
counterexample.) -/
theorem claim_C3 :
    (∀ (s : ResultSet) (n : Nat),
        s.rowsRetrieved = 0 →
        successCount (drainRows s n).1 = s.maxRows →
        (drainRows s n).2.hasNextRow = false) ∧
    (∀ s : ResultSet, s.partitions = [] → s.pyobjects = [] →
        (s.getNextRow).1 = Row.empty) := by
  constructor
  · intro s n h0 hcnt
    obtain ⟨hmax, hle⟩ := drainRows_budget n s
    refine (hasNext_false_of_budget _ ?_).1
    rw [hmax, ← hcnt]
    omega
  · intro s hp hq
    simp [ResultSet.getNextRow, getNextRowE_none s hq hp]

end tuplex

namespace tuplex

/-- Claim C10: when both queues are empty, `getNextRow` returns the
empty/sentinel row and leaves the entire cursor state unchanged — no
counter is incremented. -/
theorem claim_C10 (s : ResultSet) (hp : s.partitions = []) (hq : s.pyobjects = []) :
    s.getNextRow = (Row.empty, s) := by
  simp [ResultSet.getNextRow, getNextRowE_none s hq hp]

theorem claim_C10_witness : emptyExample.getNextRow = (Row.empty, emptyExample) :=
  claim_C10 emptyExample rfl rfl

/-- Claim C9: when `getNextRow` emits a tagged fallback row, the partition
queue, the in-partition row offset and the in-partition byte offset (and the
exception list and budget) are unchanged; only the tagged-row queue,
`rowsRetrieved` and (conditionally) `totalRowCounter` change. -/
theorem claim_C9 (s : ResultSet) (i o : Nat) (rest : List (Nat × Nat))
    (hq : s.pyobjects = (i, o) :: rest)
    (hcond : s.partitions = [] ∨ i ≤ s.totalRowCounter) :
    (s.getNextRow).1 = Row.py o ∧
    (s.getNextRow).2.partitions = s.partitions ∧
    (s.getNextRow).2.curRowCounter = s.curRowCounter ∧
    (s.getNextRow).2.byteCounter = s.byteCounter ∧
    (s.getNextRow).2.exceptions = s.exceptions ∧
    (s.getNextRow).2.maxRows = s.maxRows ∧
    (s.getNextRow).2.pyobjects = rest ∧
    (s.getNextRow).2.rowsRetrieved = s.rowsRetrieved + 1 := by
  simp [ResultSet.getNextRow, getNextRowE_tagged s i o rest hq hcond]

theorem claim_C9_witness :
    (taggedExample.getNextRow).1 = Row.py 7 ∧
    (taggedExample.getNextRow).2.partitions = taggedExample.partitions ∧
    (taggedExample.getNextRow).2.curRowCounter = taggedExample.curRowCounter ∧
    (taggedExample.getNextRow).2.byteCounter = taggedExample.byteCounter ∧
    (taggedExample.getNextRow).2.exceptions = taggedExample.exceptions ∧
    (taggedExample.getNextRow).2.maxRows = taggedExample.maxRows ∧
    (taggedExample.getNextRow).2.pyobjects = [] ∧
    (taggedExample.getNextRow).2.rowsRetrieved = taggedExample.rowsRetrieved + 1 :=
  claim_C9 taggedExample 0 7 [] rfl (Or.inl rfl)

/-- Claim C2 (amended): once `rowsRetrieved` has reached `maxRows`, the
cursor reports no more rows or partitions available — `hasNextRow` and
`hasNextPartition` return false regardless of queued data. (The pull
operations themselves do not check the budget, see the counterexample.) -/
theorem claim_C2 (s : ResultSet) (h : s.maxRows ≤ s.rowsRetrieved) :
    s.hasNextRow = false ∧ s.hasNextPartition = false :=
  hasNext_false_of_budget s h

theorem claim_C2_witness :
    budgetZeroExample.maxRows ≤ budgetZeroExample.rowsRetrieved ∧
    (budgetZeroExample.hasNextRow = false ∧ budgetZeroExample.hasNextPartition = false) :=
  ⟨by decide, claim_C2 budgetZeroExample (by decide)⟩

theorem claim_C2_cex :
    ((budgetPartExample.getNextPartition).2.maxRows <
        (budgetPartExample.getNextPartition).2.rowsRetrieved) ∧
    ((drainRows budgetRowExample 1).2.rowsRetrieved =
        (drainRows budgetRowExample 1).2.maxRows ∧
      ((drainRows budgetRowExample 1).2.getNextRow).1 = Row.py 2) := by decide

theorem claim_C3_witness :
    (budgetRowExample.rowsRetrieved = 0 ∧
      successCount (drainRows budgetRowExample 1).1 = budgetRowExample.maxRows ∧
      (drainRows budgetRowExample 1).2.hasNextRow = false) ∧
    (emptyExample.partitions = [] ∧ emptyExample.pyobjects = [] ∧
      (emptyExample.getNextRow).1 = Row.empty) :=
  ⟨⟨rfl, by decide, claim_C3.1 budgetRowExample 1 rfl (by decide)⟩,
   ⟨rfl, rfl, claim_C3.2 emptyExample rfl rfl⟩⟩

theorem claim_C3_cex :
    (drainRows budgetRowExample 1).2.hasNextRow = false ∧
    ((drainRows budgetRowExample 1).2.getNextRow).1 ≠ Row.empty := by decide

/-- Claim C8 (amended): `clear()` invalidates every queued partition and
every exception partition, empties the partition queue, and zeroes
`rowsRetrieved`, the in-partition row and byte offsets and the row budget;
`totalRowCounter` and the tagged-row queue are left unchanged. It does not
fail on an exhausted cursor. -/
theorem claim_C8 (s : ResultSet) :
    (s.clear).2 = s.partitions ++ s.exceptions ∧
    (s.clear).1.partitions = [] ∧
    (s.clear).1.rowsRetrieved = 0 ∧
    (s.clear).1.curRowCounter = 0 ∧
    (s.clear).1.byteCounter = 0 ∧
    (s.clear).1.maxRows = 0 ∧
    (s.clear).1.totalRowCounter = s.totalRowCounter ∧
    (s.clear).1.pyobjects = s.pyobjects ∧
    (s.clear).1.exceptions = s.exceptions := by
  simp [ResultSet.clear]

theorem claim_C8_cex :
    exhaustedExample.hasNextRow = false ∧
    (exhaustedExample.clear).1.totalRowCounter = 1 := by decide

/-- Claim C4 (amended): `hasNextRow()` is true iff the budget is not
exhausted and either tagged rows are pending or the front partition still
has unread rows; unread rows of later partitions are not consulted. -/
theorem claim_C4 (s : ResultSet) :
    s.hasNextRow = true ↔
      (s.rowsRetrieved < s.maxRows ∧
        (s.pyobjects ≠ [] ∨
          match s.partitions with
          | [] => False
          | p :: _ => s.curRowCounter < p.getNumRows)) := by
  obtain ⟨parts, exc, pyo, cur, byte, total, maxR, retr⟩ := s
  simp only [ResultSet.hasNextRow]
  cases parts <;> cases pyo <;> by_cases h : maxR ≤ retr <;> simp_all

theorem claim_C4_cex :
    zeroFrontExample.hasNextRow = false ∧ specHasNextRow zeroFrontExample := by
  constructor
  · decide
  · simp only [specHasNextRow, zeroFrontExample, mkResultSet]
    decide

/-- Claim C5 (amended): if the tagged queue starts with two rows of the same
logical index, the emission condition holds, and no third duplicate follows,
two consecutive calls emit both rows back to back with `totalRowCounter`
advancing by exactly 1; in general, a tagged emission advances
`totalRowCounter` iff the next queued tagged row (if any) has a different
logical index. -/
theorem claim_C5 :
    (∀ (s : ResultSet) (i o₁ o₂ : Nat) (rest : List (Nat × Nat)),
        s.pyobjects = (i, o₁) :: (i, o₂) :: rest →
        (s.partitions = [] ∨ i ≤ s.totalRowCounter) →
        nextIndexDiffers i rest = true →
        (s.getNextRow).1 = Row.py o₁ ∧
        ((s.getNextRow).2.getNextRow).1 = Row.py o₂ ∧
        ((s.getNextRow).2.getNextRow).2.totalRowCounter = s.totalRowCounter + 1) ∧
    (∀ (s : ResultSet) (i o : Nat) (rest : List (Nat × Nat)),
        s.pyobjects = (i, o) :: rest →
        (s.partitions = [] ∨ i ≤ s.totalRowCounter) →
        ((s.getNextRow).2.totalRowCounter = s.totalRowCounter + 1 ↔
          nextIndexDiffers i rest = true)) := by
  constructor
  · intro s i o₁ o₂ rest hq hcond hdiff
    have h1 := getNextRowE_tagged s i o₁ ((i, o₂) :: rest) hq hcond
    have hsame : nextIndexDiffers i ((i, o₂) :: rest) = false := by
      simp [nextIndexDiffers]
    rw [hsame] at h1
    simp only [if_neg Bool.false_ne_true] at h1
    have h2 := getNextRowE_tagged (s.getNextRowE).state i o₂ rest
      (by rw [h1]) (by rw [h1]; exact hcond)
    rw [h1] at h2
    simp only [ResultSet.getNextRow, h1, h2, hdiff, if_pos]
    simp
  · intro s i o rest hq hcond
    have h1 := getNextRowE_tagged s i o rest hq hcond
    simp only [ResultSet.getNextRow, h1]
    cases h : nextIndexDiffers i rest <;> simp

theorem claim_C5_witness :
    ((dupPairExample.getNextRow).1 = Row.py 1 ∧
      ((dupPairExample.getNextRow).2.getNextRow).1 = Row.py 2 ∧
      ((dupPairExample.getNextRow).2.getNextRow).2.totalRowCounter =
        dupPairExample.totalRowCounter + 1) ∧
    ((dupPairExample.getNextRow).2.totalRowCounter = dupPairExample.totalRowCounter + 1 ↔
      nextIndexDiffers 5 [(5, 2)] = true) :=
  ⟨claim_C5.1 dupPairExample 5 1 2 [] rfl (Or.inl rfl) (by decide),
   claim_C5.2 dupPairExample 5 1 [(5, 2)] rfl (Or.inl rfl)⟩

theorem claim_C5_cex :
    ((dupBlockedExample.getNextRow).1 ≠ Row.py 21 ∧
      (dupBlockedExample.getNextRow).2.pyobjects = dupBlockedExample.pyobjects) ∧
    ((drainRows tripleDupExample 2).1 = [Row.py 1, Row.py 2] ∧
      (drainRows tripleDupExample 2).2.totalRowCounter =
        tripleDupExample.totalRowCounter) := by decide

/-- Claim C1: with a non-empty tagged queue, `getNextRow` emits (converts,
returns and pops) the front tagged row iff the partition queue is empty or
its logical index is at most `totalRowCounter`; and the fallback-splice
example produces `[P0, Tagged, P1, P2]`. -/
theorem claim_C1 :
    (∀ (s : ResultSet) (i o : Nat) (rest : List (Nat × Nat)),
        s.pyobjects = (i, o) :: rest →
        (((s.getNextRow).1 = Row.py o ∧ (s.getNextRow).2.pyobjects = rest) ↔
          (s.partitions = [] ∨ i ≤ s.totalRowCounter))) ∧
    (drainRows spliceExample 4).1 =
      [Row.binary ⟨10, 1⟩, Row.py 99, Row.binary ⟨11, 1⟩, Row.binary ⟨12, 1⟩] := by
  constructor
  · intro s i o rest hq
    constructor
    · intro ⟨hrow, _⟩
      by_contra hcond
      rcases hp : s.partitions with _ | ⟨first, restP⟩
      · exact hcond (Or.inl hp)
      · have h1 := getNextRowE_blocked s i o rest first restP hq hcond hp
        simp only [ResultSet.getNextRow, h1, partStep] at hrow
        split at hrow <;> exact fromMemory_ne_py _ _ _ hrow
    · intro hcond
      have h1 := getNextRowE_tagged s i o rest hq hcond
      simp [ResultSet.getNextRow, h1]
  · decide

theorem claim_C1_witness :
    (taggedExample.getNextRow).1 = Row.py 7 ∧
    (taggedExample.getNextRow).2.pyobjects = [] :=
  (claim_C1.1 taggedExample 0 7 [] rfl).mpr (Or.inl rfl)

end tuplex

namespace tuplex

theorem sumLen_append (xs ys : List SerRow) :
    sumLen (xs ++ ys) = sumLen xs + sumLen ys := by
  simp [sumLen]

theorem fromMemory_at (pre : List SerRow) (r : SerRow) (post : List SerRow)
    (hpos : ∀ x ∈ pre, 0 < x.len) :
    Row.fromMemory (pre ++ r :: post) (sumLen pre) = Row.binary r := by
  induction pre with
  | nil => simp [Row.fromMemory, sumLen]
  | cons x xs ih =>
      have hx : 0 < x.len := hpos x (List.mem_cons_self x xs)
      have hoff : sumLen (x :: xs) = x.len + sumLen xs := by simp [sumLen]
      rw [List.cons_append, hoff]
      simp only [Row.fromMemory]
      rw [if_neg (by omega)]
      have hsub : x.len + sumLen xs - x.len = sumLen xs := by omega
      rw [hsub]
      exact ih fun y hy => hpos y (List.mem_cons_of_mem x hy)

theorem drain_front (todo : List SerRow) :
    ∀ (done : List SerRow) (p : Partition) (restP : List Partition) (s : ResultSet),
    s.pyobjects = [] → s.partitions = p :: restP →
    p.rows = done ++ todo → todo ≠ [] →
    (∀ r ∈ p.rows, 0 < r.len) →
    s.curRowCounter = done.length → s.byteCounter = sumLen done →
    (drainRows s todo.length).1 = todo.map Row.binary ∧
    (drainRows s todo.length).2 =
      { s with partitions := restP, curRowCounter := 0, byteCounter := 0,
               rowsRetrieved := s.rowsRetrieved + todo.length,
               totalRowCounter := s.totalRowCounter + todo.length } := by
  induction todo with
  | nil => intro done p restP s _ _ _ hne _ _ _; exact absurd rfl hne
  | cons r todo' ih =>
      intro done p restP s hq hp hrows hne hpos hcur hbyte
      have hnum : p.getNumRows = done.length + (todo'.length + 1) := by
        simp [Partition.getNumRows, hrows]
      have hdecode : Row.fromMemory p.rows s.byteCounter = Row.binary r := by
        rw [hbyte, hrows]
        exact fromMemory_at done r todo'
          (fun x hx => hpos x (by rw [hrows]; exact List.mem_append_left _ hx))
      have hE := getNextRowE_part s p restP hq hp
      rcases todo' with _ | ⟨r2, todo''⟩
      · have hcond : s.curRowCounter + 1 = p.getNumRows := by
          rw [hcur, hnum]; simp
        have hstep : s.getNextRowE =
            ⟨Row.binary r,
             { s with partitions := restP, curRowCounter := 0, byteCounter := 0,
                      rowsRetrieved := s.rowsRetrieved + 1,
                      totalRowCounter := s.totalRowCounter + 1 },
             [p], [p]⟩ := by
          rw [hE]
          simp only [partStep, hdecode, Row.serializedLength]
          rw [if_pos hcond]
        simp only [List.length_cons, List.length_nil]
        simp only [drainRows, ResultSet.getNextRow, hstep]
        constructor
        · simp
        · simp only [ResultSet.mk.injEq, true_and, and_true] <;> omega
      · have hcond : ¬(s.curRowCounter + 1 = p.getNumRows) := by
          rw [hcur, hnum]
          simp only [List.length_cons]
          omega
        have hstep : s.getNextRowE =
            ⟨Row.binary r,
             { s with byteCounter := s.byteCounter + r.len,
                      curRowCounter := s.curRowCounter + 1,
                      rowsRetrieved := s.rowsRetrieved + 1,
                      totalRowCounter := s.totalRowCounter + 1 },
             [], [p]⟩ := by
          rw [hE]
          simp only [partStep, hdecode, Row.serializedLength]
          rw [if_neg hcond]
        obtain ⟨ih1, ih2⟩ := ih (done ++ [r]) p restP
          { s with byteCounter := s.byteCounter + r.len,
                   curRowCounter := s.curRowCounter + 1,
                   rowsRetrieved := s.rowsRetrieved + 1,
                   totalRowCounter := s.totalRowCounter + 1 }
          hq hp (by rw [hrows]; simp) (by simp) hpos
          (by simp [hcur]) (by simp [sumLen_append, hbyte, sumLen])
      -- keep the remaining length opaque so drainRows unfolds exactly once
        rw [List.length_cons]
        generalize hm : (r2 :: todo'').length = m at ih1 ih2 ⊢
        simp only [drainRows, ResultSet.getNextRow, hstep]
        constructor
        · rw [ih1]
          simp
        · rw [ih2]
          simp only [ResultSet.mk.injEq, true_and, and_true] <;> omega

theorem drainRows_add (m n : Nat) : ∀ s : ResultSet,
    (drainRows s (m + n)).1 = (drainRows s m).1 ++ (drainRows (drainRows s m).2 n).1 ∧
    (drainRows s (m + n)).2 = (drainRows (drainRows s m).2 n).2 := by
  induction m with
  | zero => intro s; simp [drainRows]
  | succ m ih =>
      intro s
      have hms : m + 1 + n = (m + n) + 1 := by omega
      rw [hms]
      simp only [drainRows]
      obtain ⟨h1, h2⟩ := ih (s.getNextRow).2
      rw [h1, h2]
      simp

theorem drain_parts (parts : List Partition) :
    ∀ s : ResultSet,
    s.pyobjects = [] → s.partitions = parts →
    (∀ p ∈ parts, goodPartition p) →
    s.curRowCounter = 0 → s.byteCounter = 0 →
    (drainRows s (totalQueuedRows parts)).1 = parts.flatMap Partition.decodedRows ∧
    (drainRows s (totalQueuedRows parts)).2 =
      { s with partitions := [], curRowCounter := 0, byteCounter := 0,
               rowsRetrieved := s.rowsRetrieved + totalQueuedRows parts,
               totalRowCounter := s.totalRowCounter + totalQueuedRows parts } := by
  induction parts with
  | nil =>
      intro s hq hp _ hcur hbyte
      obtain ⟨parts0, exc0, pyo0, cur0, byte0, total0, maxR0, retr0⟩ := s
      simp only at hq hp hcur hbyte
      subst hq hp hcur hbyte
      simp [drainRows, totalQueuedRows]
  | cons p parts' ih =>
      intro s hq hp hgood hcur hbyte
      have htot : totalQueuedRows (p :: parts') = p.getNumRows + totalQueuedRows parts' := by
        simp [totalQueuedRows]
      obtain ⟨ha1, ha2⟩ := drainRows_add p.getNumRows (totalQueuedRows parts') s
      have hgp : goodPartition p := hgood p (List.mem_cons_self p parts')
      obtain ⟨hf1, hf2⟩ := drain_front p.rows [] p parts' s hq hp (by simp) hgp.1 hgp.2
        (by simp [hcur]) (by simp [sumLen, hbyte])
      have hlen : p.rows.length = p.getNumRows := rfl
      rw [hlen] at hf1 hf2
      obtain ⟨ihA, ihB⟩ := ih (drainRows s p.getNumRows).2
        (by rw [hf2]; exact hq) (by rw [hf2])
        (fun q hqmem => hgood q (List.mem_cons_of_mem p hqmem))
        (by rw [hf2]) (by rw [hf2])
      rw [htot]
      constructor
      · rw [ha1, ihA, hf1]
        simp [Partition.decodedRows]
      · rw [ha2, ihB, hf2]
        simp only [ResultSet.mk.injEq, true_and, and_true]
        omega

/-- Claim C6: with no tagged rows, the `getNextRow` stream equals the
concatenation of the partitions' decoded rows in arrival order. -/
theorem claim_C6 (parts exc : List Partition)
    (hgood : ∀ p ∈ parts, goodPartition p) :
    (drainRows (mkResultSet parts exc [] (-1)) (totalQueuedRows parts)).1 =
      parts.flatMap Partition.decodedRows ∧
    (drainRows (mkResultSet parts exc [] (-1)) (totalQueuedRows parts)).2.partitions = [] := by
  obtain ⟨h1, h2⟩ := drain_parts parts (mkResultSet parts exc [] (-1)) rfl rfl hgood rfl rfl
  exact ⟨h1, by rw [h2]⟩

theorem claim_C6_witness :
    (drainRows (mkResultSet c6Parts [] [] (-1)) (totalQueuedRows c6Parts)).1 =
      c6Parts.flatMap Partition.decodedRows ∧
    (drainRows (mkResultSet c6Parts [] [] (-1)) (totalQueuedRows c6Parts)).2.partitions = [] :=
  claim_C6 c6Parts [] (by decide)

end tuplex

namespace tuplex

theorem partStep_parts (s : ResultSet) (first : Partition) (restP : List Partition) :
    ((partStep s first restP).state.partitions = restP ∧
      (partStep s first restP).invalidated = [first] ∧
      (partStep s first restP).locked = [first]) ∨
    ((partStep s first restP).state.partitions = s.partitions ∧
      (partStep s first restP).invalidated = [] ∧
      (partStep s first restP).locked = [first]) := by
  simp only [partStep]
  split
  · exact Or.inl ⟨rfl, rfl, rfl⟩
  · exact Or.inr ⟨rfl, rfl, rfl⟩

theorem cleanFor_append (p : Partition) (xs ys : List Ev)
    (hxs : cleanFor p xs) (hys : cleanFor p ys)
    (hcross : Ev.inval p ∈ xs → Ev.inval p ∉ ys ∧ Ev.readP p ∉ ys) :
    cleanFor p (xs ++ ys) := by
  induction xs with
  | nil => simpa using hys
  | cons e xs ih =>
      rw [List.cons_append]
      obtain ⟨h1, h2⟩ := hxs
      refine ⟨?_, ih h2 (fun hin => hcross (List.mem_cons_of_mem _ hin))⟩
      intro he
      obtain ⟨hr, hi⟩ := h1 he
      have hin : Ev.inval p ∈ e :: xs := by rw [← he]; exact List.mem_cons_self _ _
      obtain ⟨hy1, hy2⟩ := hcross hin
      constructor
      · intro hmem
        rcases List.mem_append.mp hmem with h | h
        · exact hr h
        · exact hy2 h
      · intro hmem
        rcases List.mem_append.mp hmem with h | h
        · exact hi h
        · exact hy1 h

theorem cleanFor_map_inval (p : Partition) (l : List Partition) (h : l.count p ≤ 1) :
    cleanFor p (l.map Ev.inval) := by
  induction l with
  | nil => exact trivial
  | cons q l ih =>
      rw [List.map_cons]
      refine ⟨?_, ?_⟩
      · intro he
        have hqp : q = p := by injection he
        subst hqp
        have hcount : l.count q = 0 := by
          rw [List.count_cons] at h
          simp at h
          omega
        have hnotmem : q ∉ l := List.count_eq_zero.mp hcount
        constructor
        · intro hmem
          obtain ⟨a, _, hae⟩ := List.mem_map.mp hmem
          exact absurd hae (by simp)
        · intro hmem
          obtain ⟨a, ha, hae⟩ := List.mem_map.mp hmem
          have haq : a = q := by injection hae
          exact hnotmem (haq ▸ ha)
      · apply ih
        rw [List.count_cons] at h
        exact le_trans (Nat.le_add_right _ _) h

theorem stepEv_dead (s : ResultSet) (op : Op) (p : Partition)
    (hpart : p ∉ s.partitions) (hexc : p ∉ s.exceptions) :
    Ev.inval p ∉ (stepEv s op).2 ∧ Ev.readP p ∉ (stepEv s op).2 ∧
    p ∉ (stepEv s op).1.partitions ∧ (stepEv s op).1.exceptions = s.exceptions := by
  cases op with
  | getRow =>
      rcases getNextRowE_cases s with ⟨h, _, _⟩ | ⟨i, o, rest, hq, h⟩ | ⟨first, restP, hp, h⟩
      · simp only [stepEv, h]
        simp_all
      · simp only [stepEv, h]
        simp_all
      · have hfirst : first ∈ s.partitions := by
          rw [hp]; exact List.mem_cons_self _ _
        have hne : p ≠ first := fun hc => hpart (hc ▸ hfirst)
        have hrest : p ∉ restP := fun hc => hpart (by rw [hp]; exact List.mem_cons_of_mem _ hc)
        have hexcP := (partStep_state s first restP).2.2.2.2
        rcases partStep_parts s first restP with ⟨h1, h2, h3⟩ | ⟨h1, h2, h3⟩ <;>
          simp only [stepEv, h, h1, h2, h3, hexcP] <;> simp_all
  | getPart =>
      rcases hp : s.partitions with _ | ⟨first, restP⟩ <;>
        simp only [stepEv, ResultSet.getNextPartition, hp] <;> simp_all
  | removeFirst =>
      rcases hp : s.partitions with _ | ⟨first, restP⟩ <;>
        simp only [stepEv, ResultSet.removeFirstPartition, hp] <;> simp_all
  | clearAll =>
      simp only [stepEv, ResultSet.clear]
      simp_all
  | hasRow => exact ⟨by simp [stepEv], by simp [stepEv], hpart, rfl⟩
  | hasPart => exact ⟨by simp [stepEv], by simp [stepEv], hpart, rfl⟩
  | countRows => exact ⟨by simp [stepEv], by simp [stepEv], hpart, rfl⟩

theorem stepEv_facts (s : ResultSet) (op : Op) (p : Partition)
    (hnd : s.partitions.Nodup) (hexc : p ∉ s.exceptions) :
    (stepEv s op).1.exceptions = s.exceptions ∧
    (stepEv s op).1.partitions.Nodup ∧
    cleanFor p (stepEv s op).2 ∧
    (Ev.inval p ∈ (stepEv s op).2 → p ∉ (stepEv s op).1.partitions) := by
  cases op with
  | getRow =>
      rcases getNextRowE_cases s with ⟨h, _, _⟩ | ⟨i, o, rest, hq, h⟩ | ⟨first, restP, hp, h⟩
      · simp only [stepEv, h]
        simp_all [cleanFor]
      · simp only [stepEv, h]
        simp_all [cleanFor]
      · have hndr : restP.Nodup := by
          rw [hp] at hnd
          exact (List.nodup_cons.mp hnd).2
        have hfr : first ∉ restP := by
          rw [hp] at hnd
          exact (List.nodup_cons.mp hnd).1
        have hexcP := (partStep_state s first restP).2.2.2.2
        rcases partStep_parts s first restP with ⟨h1, h2, h3⟩ | ⟨h1, h2, h3⟩
        · simp only [stepEv, h, h1, h2, h3]
          refine ⟨hexcP, hndr, ?_, ?_⟩
          · simp [cleanFor]
          · intro hmem
            simp only [List.map_cons, List.map_nil, List.mem_append,
              List.mem_singleton] at hmem
            rcases hmem with hm | hm
            · exact absurd hm (by simp)
            · have hpf : p = first := by injection hm
              subst hpf
              exact hfr
        · simp only [stepEv, h, h1, h2, h3]
          refine ⟨hexcP, hnd, ?_, ?_⟩
          · simp [cleanFor]
          · intro hmem
            simp at hmem
  | getPart =>
      rcases hp : s.partitions with _ | ⟨first, restP⟩ <;>
        simp only [stepEv, ResultSet.getNextPartition, hp]
      · simp_all [cleanFor]
      · rw [hp] at hnd
        simp_all [cleanFor, List.nodup_cons]
  | removeFirst =>
      rcases hp : s.partitions with _ | ⟨first, restP⟩ <;>
        simp only [stepEv, ResultSet.removeFirstPartition, hp]
      · simp_all [cleanFor]
      · rw [hp] at hnd
        obtain ⟨hfr, hndr⟩ := List.nodup_cons.mp hnd
        refine ⟨trivial, hndr, ?_, ?_⟩
        · refine ⟨fun he => ⟨by simp, by simp⟩, trivial⟩
        · intro hmem hcontra
          simp at hmem
          subst hmem
          exact hfr hcontra
  | clearAll =>
      simp only [stepEv, ResultSet.clear]
      refine ⟨trivial, List.nodup_nil, ?_, fun _ => List.not_mem_nil p⟩
      apply cleanFor_map_inval
      rw [List.count_append]
      have h1 : s.partitions.count p ≤ 1 := List.nodup_iff_count_le_one.mp hnd p
      have h2 : s.exceptions.count p = 0 := List.count_eq_zero.mpr hexc
      omega
  | hasRow => exact ⟨rfl, hnd, trivial, by simp [stepEv]⟩
  | hasPart => exact ⟨rfl, hnd, trivial, by simp [stepEv]⟩
  | countRows => exact ⟨rfl, hnd, trivial, by simp [stepEv]⟩

end tuplex

namespace tuplex

theorem runEv_dead (ops : List Op) : ∀ (s : ResultSet) (p : Partition),
    p ∉ s.partitions → p ∉ s.exceptions →
    Ev.inval p ∉ (runEv s ops).2 ∧ Ev.readP p ∉ (runEv s ops).2 := by
  induction ops with
  | nil => intro s p _ _; simp [runEv]
  | cons op ops ih =>
      intro s p hpart hexc
      obtain ⟨h1, h2, h3, h4⟩ := stepEv_dead s op p hpart hexc
      obtain ⟨ih1, ih2⟩ := ih (stepEv s op).1 p h3 (by rw [h4]; exact hexc)
      simp only [runEv]
      constructor <;> intro hmem <;> rcases List.mem_append.mp hmem with hm | hm
      · exact h1 hm
      · exact ih1 hm
      · exact h2 hm
      · exact ih2 hm

theorem runEv_clean (ops : List Op) : ∀ (s : ResultSet) (p : Partition),
    s.partitions.Nodup → p ∉ s.exceptions →
    cleanFor p (runEv s ops).2 := by
  induction ops with
  | nil => intro s p _ _; exact trivial
  | cons op ops ih =>
      intro s p hnd hexc
      obtain ⟨hexcI, hndI, hclean, hinval⟩ := stepEv_facts s op p hnd hexc
      have ihclean := ih (stepEv s op).1 p hndI (by rw [hexcI]; exact hexc)
      simp only [runEv]
      apply cleanFor_append p _ _ hclean ihclean
      intro hin
      have hdead := runEv_dead ops (stepEv s op).1 p (hinval hin) (by rw [hexcI]; exact hexc)
      exact hdead

/-- Claim C7: (a) along any operation sequence from a freshly constructed
cursor whose queued partitions are pairwise distinct and disjoint from the
exception list, once a partition is invalidated it is never invalidated
again nor has its buffer read (locked) again; (b) the `getNextRow` call
that reads the last row of the front partition invalidates exactly that
partition, pops it, and resets both in-partition offsets to zero. -/
theorem claim_C7 :
    (∀ (parts exc : List Partition) (pyo : List (Nat × Nat)) (mx : Int)
        (ops : List Op) (p : Partition),
        parts.Nodup → p ∉ exc →
        cleanFor p (runEv (mkResultSet parts exc pyo mx) ops).2) ∧
    (∀ (s : ResultSet) (first : Partition) (restP : List Partition),
        s.pyobjects = [] → s.partitions = first :: restP →
        s.curRowCounter + 1 = first.getNumRows →
        (s.getNextRowE).invalidated = [first] ∧
        (s.getNextRowE).state.partitions = restP ∧
        (s.getNextRowE).state.curRowCounter = 0 ∧
        (s.getNextRowE).state.byteCounter = 0) := by
  constructor
  · intro parts exc pyo mx ops p hnd hexc
    exact runEv_clean ops (mkResultSet parts exc pyo mx) p hnd hexc
  · intro s first restP hq hp hcond
    have hE := getNextRowE_part s first restP hq hp
    rw [hE]
    simp only [partStep]
    rw [if_pos hcond]
    exact ⟨rfl, rfl, rfl, rfl⟩

theorem claim_C7_witness :
    cleanFor partExample
      (runEv (mkResultSet [partExample] [] [] 5) [Op.getRow, Op.getRow]).2 ∧
    ((onePartExample.getNextRowE).invalidated = [partExample] ∧
      (onePartExample.getNextRowE).state.partitions = [] ∧
      (onePartExample.getNextRowE).state.curRowCounter = 0 ∧
      (onePartExample.getNextRowE).state.byteCounter = 0) :=
  ⟨claim_C7.1 [partExample] [] [] 5 [Op.getRow, Op.getRow] partExample
      (by simp) (by simp),
   claim_C7.2 onePartExample partExample [] rfl rfl (by decide)⟩

end tuplex
